import Mathlib

/-!
Shallow embedding of the pggo migration engine (`migrate/migrate.go`).

The database connection is modelled as an event trace: every call the
migrator makes on the connection (advisory-lock acquire/release,
transaction begin/commit, SQL execution, the `reset all` statement and
the version-table insert/delete statements) is appended to a trace, and
a `DBBehavior` value decides which of those operations fail.  The
version table's contents (the applied-migration names ordered by
`migrated_at`) are threaded through explicitly as a list of strings:
an insert appends a name, a delete removes every row with that name.
Queries (`GetCurrentVersion`) are modelled as reading that list and are
assumed not to fail; the Go error paths for failing queries are not
exercised by any claim.
-/

namespace Pggo

/-- Direction of a migration run (source: `MigraionDirection`, with the
constants `Back`, `Forward`, `NotFound`; the source's spelling of the
type name is kept). -/
inductive MigraionDirection where
  | Back
  | Forward
  | NotFound
deriving DecidableEq, Repr

/-- A loaded migration (source: `struct Migration`).  Go's `int32`
sequence is modelled as `Int`; sequence numbers stay far below `2^31`
so overflow cannot occur. -/
structure Migration where
  Sequence : Int
  Name : String
  UpSQL : String
  DownSQL : String
deriving DecidableEq, Repr

/-- Source: `struct MigratorOptions` (the `MigratorFS` field is part of
the loader's file-system access and is modelled by passing directory
listings explicitly). -/
structure MigratorOptions where
  DisableTx : Bool
deriving DecidableEq, Repr

/-- Source: `struct Migrator`.  The Go field `Migrations` is a
`map[string]*Migration` keyed by `Name` (see `AppendMigration`); it is
modelled as a list looked up by name.  `onStartSet` records whether the
`OnStart` callback is non-nil.  `fake` is Modelled from the spec: fake
mode (`EnableFake`, toggled by the CLI `-f` flag in the repository's
command layer) is absent from `src/migrate/migrate.go`; per the spec it
suppresses the SQL execution step while preserving every other step of
the per-migration state machine.  With `fake = false` the definitions
below follow the source exactly. -/
structure Migrator where
  options : MigratorOptions
  Migrations : List Migration
  onStartSet : Bool
  fake : Bool
deriving DecidableEq, Repr

/-- Go map read `m.Migrations[name]`: the migration whose `Name` is
`name`, if present. -/
def mapLookup (migs : List Migration) (name : String) : Option Migration :=
  migs.find? (fun mg => mg.Name == name)

/-- Source: `func Position(a []string, x string) int`, a linear scan
returning the first index of `x` or `-1`.  The running index of the Go
`range` loop is the extra parameter. -/
def PositionFrom (i : Int) : List String → String → Int
  | [], _ => -1
  | s :: rest, x => if x = s then i else PositionFrom (i + 1) rest x

/-- Source: `Position`. -/
def Position (a : List String) (x : String) : Int :=
  PositionFrom 0 a x

/-- Source: `func Reverse(s []string)`, an in-place swap loop whose net
effect is list reversal. -/
def Reverse (s : List String) : List String :=
  s.reverse

/-- Boolean lexicographic comparison of strings, written over the
character lists so that it evaluates inside the kernel; it agrees with
the `≤` order on `String` (`strLe_iff` below). -/
def strLe (a b : String) : Bool :=
  !(decide (b.data < a.data))

instance : IsTotal String (fun a b => strLe a b = true) :=
  ⟨fun a b => by
    rcases le_total a b with h | h
    · left
      rw [strLe, Bool.not_eq_true', decide_eq_false_iff_not]
      intro hlt
      exact (not_lt.mpr h) (String.lt_iff_toList_lt.mpr hlt)
    · right
      rw [strLe, Bool.not_eq_true', decide_eq_false_iff_not]
      intro hlt
      exact (not_lt.mpr h) (String.lt_iff_toList_lt.mpr hlt)⟩

instance : IsTrans String (fun a b => strLe a b = true) :=
  ⟨fun x y z hxy hyz => by
    rw [strLe, Bool.not_eq_true', decide_eq_false_iff_not] at hxy hyz ⊢
    have h1 : ¬ y < x := fun hl => hxy (String.lt_iff_toList_lt.mp hl)
    have h2 : ¬ z < y := fun hl => hyz (String.lt_iff_toList_lt.mp hl)
    have h5 : x ≤ z := le_trans (not_lt.mp h1) (not_lt.mp h2)
    intro hl
    exact (not_lt.mpr h5) (String.lt_iff_toList_lt.mpr hl)⟩

/-- Embedding of Go's `sort.Strings` (ascending lexicographic sort). -/
def sortStrings (l : List String) : List String :=
  l.insertionSort (fun a b => strLe a b = true)

/-- Source: `func (m *Migrator) MigrationsToApply`.  `applied` is the
result of `GetCurrentVersion` (the version-table rows ordered by
`migrated_at`).  The Go code walks the migration map, keeps every
candidate whose name is not among the applied names, and sorts the
result. -/
def MigrationsToApply (m : Migrator) (applied : List String) : List String :=
  sortStrings ((m.Migrations.filter (fun mg => !(applied.contains mg.Name))).map Migration.Name)

/-- Source: `func (m *Migrator) GetDirection`.  The query error path of
`GetCurrentVersion` is not modelled (queries succeed). -/
def GetDirection (m : Migrator) (applied : List String) (target : String) : MigraionDirection :=
  if Position applied target ≥ 0 then .Back
  else if (mapLookup m.Migrations target).isSome then .Forward
  else .NotFound

/-- The traversal list computed by `MigrateTo` in the `Back` branch:
`GetCurrentVersion` is re-read, reversed in place, and sliced strictly
before the target's position (`currentMigrations[:Position(...)]`).
`Int.toNat` is harmless: under direction `Back` the position is
nonnegative (a negative index would be a Go slice panic, unreachable
here). -/
def backTraversal (applied : List String) (target : String) : List String :=
  let cur := Reverse applied
  cur.take (Position cur target).toNat

/-- One database-connection operation issued by the migrator, as an
event-trace entry.  `execSQL` is a migration body executed via
`conn.Exec`; `insertVersion`/`deleteVersion` are the version-table
bookkeeping statements of `markMigrationApplied` /
`markMigrationUnapplied`. -/
inductive DBOp where
  | acquireLock
  | releaseLock
  | beginTx
  | commitTx
  | execSQL (sql : String)
  | resetAll
  | insertVersion (name : String)
  | deleteVersion (name : String)
deriving DecidableEq, Repr

/-- Which connection operations fail.  The Go code surfaces these
failures as returned errors (except the `reset all` statement, whose
error is discarded by the source). -/
structure DBBehavior where
  opFails : DBOp → Bool

/-- A database on which every operation succeeds. -/
def noFail : DBBehavior :=
  ⟨fun _ => false⟩

/-- A database on which exactly the advisory-lock release fails. -/
def unlockFailOnly : DBBehavior :=
  ⟨fun op => op == .releaseLock⟩

/-- One invocation of the `OnStart` callback, with its four arguments
`(sequence, name, direction label, sql)`. -/
structure StartCall where
  sequence : Int
  name : String
  direction : String
  sql : String
deriving DecidableEq, Repr

/-- Observable state threaded through a `MigrateTo` run: the version
table contents, the connection event trace, and the `OnStart`
invocations. -/
structure LoopSt where
  applied : List String
  trace : List DBOp
  starts : List StartCall
deriving DecidableEq, Repr

/-- Error values returned by `MigrateTo`.  `irreversibleMigration`
mirrors the source's `IrreversibleMigrationError` type, which the
source defines but never raises (the check is commented out in
`MigrateTo`). -/
inductive MigErr where
  | migrationNotFound (name : String)
  | irreversibleMigration (sequence : Int) (name : String)
  | dbError (op : DBOp)
deriving DecidableEq, Repr

/-- How a `MigrateTo` call ends: normal return, error return, or a Go
runtime panic (nil-pointer dereference). -/
inductive RunResult where
  | ok
  | errored (e : MigErr)
  | panicked
deriving DecidableEq, Repr

/-- Result of a run together with the final observable state. -/
structure RunOutcome where
  result : RunResult
  st : LoopSt
deriving DecidableEq, Repr

/-- Issue one connection operation: append it to the trace and report
whether the behaviour makes it fail. -/
def doOp (beh : DBBehavior) (st : LoopSt) (op : DBOp) : LoopSt × Bool :=
  ({ st with trace := st.trace ++ [op] }, beh.opFails op)

/-- The body of `MigrateTo`'s per-migration loop (source lines 407-478)
for one traversal entry `name`.  Step order follows the source: map
lookup, SQL selection by direction, transaction begin, `OnStart`
callback, SQL execution, `reset all`, version-table bookkeeping,
commit.  A missing map entry is a nil `*Migration`, so the field read
`current.UpSQL`/`current.DownSQL` panics.  The Go variable
`directionName` is declared but never assigned, so the callback always
receives `""` as the direction label.  The `¬ fake` guard on execution
is the spec-modelled fake mode; everything else is the source. -/
def runStep (m : Migrator) (beh : DBBehavior) (direction : MigraionDirection)
    (name : String) (st : LoopSt) : RunResult × LoopSt :=
  match mapLookup m.Migrations name with
  | none => (.panicked, st)
  | some current =>
    let sql := if direction = .Forward then current.UpSQL else current.DownSQL
    let p1 := if m.options.DisableTx then (st, false) else doOp beh st .beginTx
    if p1.2 then (.errored (.dbError .beginTx), p1.1)
    else
      let st1 := p1.1
      let st2 :=
        if m.onStartSet then
          { st1 with starts := st1.starts ++ [⟨current.Sequence, current.Name, "", sql⟩] }
        else st1
      let p2 := if sql ≠ "" ∧ m.fake = false then doOp beh st2 (.execSQL sql) else (st2, false)
      if p2.2 then (.errored (.dbError (.execSQL sql)), p2.1)
      else
        let p3 := doOp beh p2.1 .resetAll
        let versionOp : DBOp :=
          if direction = .Forward then .insertVersion name else .deleteVersion name
        let p4 := doOp beh p3.1 versionOp
        if p4.2 then (.errored (.dbError versionOp), p4.1)
        else
          let st5 :=
            if direction = .Forward then { p4.1 with applied := p4.1.applied ++ [name] }
            else { p4.1 with applied := p4.1.applied.filter (fun s => s != name) }
          let p5 := if m.options.DisableTx then (st5, false) else doOp beh st5 .commitTx
          if p5.2 then (.errored (.dbError .commitTx), p5.1)
          else (.ok, p5.1)

/-- The traversal loop of `MigrateTo`: process each entry in order; on
a successful step, stop when the just-processed name equals the target
(`if targetMigration == currentName`), otherwise continue; any error or
panic stops the loop. -/
def runLoop (m : Migrator) (beh : DBBehavior) (direction : MigraionDirection)
    (target : String) : List String → LoopSt → RunOutcome
  | [], st => ⟨.ok, st⟩
  | name :: rest, st =>
    match runStep m beh direction name st with
    | (.ok, st1) =>
      if target = name then ⟨.ok, st1⟩
      else runLoop m beh direction target rest st1
    | (r, st1) => ⟨r, st1⟩

/-- `MigrateTo` between lock acquisition and the deferred release:
resolve the direction, compute the traversal, run the loop.  A
`NotFound` target returns `MigrationNotFound` without touching any
migration. -/
def MigrateToInner (m : Migrator) (beh : DBBehavior) (applied : List String)
    (target : String) (st : LoopSt) : RunOutcome :=
  match GetDirection m applied target with
  | .Forward => runLoop m beh .Forward target (MigrationsToApply m applied) st
  | .Back => runLoop m beh .Back target (backTraversal applied target) st
  | .NotFound => ⟨.errored (.migrationNotFound target), st⟩

/-- Source: `func (m *Migrator) MigrateTo`.  The advisory lock is
acquired first (an acquisition failure returns at once, before the
deferred release is registered); the deferred function then releases
the lock on every exit path, and a release failure replaces the
returned error only when the run's own error is nil.  A panic
propagates through the deferred release unchanged. -/
def MigrateTo (m : Migrator) (beh : DBBehavior) (applied : List String)
    (target : String) : RunOutcome :=
  let st0 : LoopSt := ⟨applied, [], []⟩
  let pAcq := doOp beh st0 .acquireLock
  if pAcq.2 then ⟨.errored (.dbError .acquireLock), pAcq.1⟩
  else
    let inner := MigrateToInner m beh applied target pAcq.1
    let pRel := doOp beh inner.st .releaseLock
    let result :=
      match inner.result, pRel.2 with
      | .ok, true => .errored (.dbError .releaseLock)
      | r, _ => r
    ⟨result, pRel.1⟩

/-- The names inserted into the version table during a run, in order. -/
def insertions (trace : List DBOp) : List String :=
  trace.filterMap (fun op => match op with | .insertVersion n => some n | _ => none)

/-- The names deleted from the version table during a run, in order. -/
def deletions (trace : List DBOp) : List String :=
  trace.filterMap (fun op => match op with | .deleteVersion n => some n | _ => none)

/-- The migration SQL bodies executed during a run, in order. -/
def executions (trace : List DBOp) : List String :=
  trace.filterMap (fun op => match op with | .execSQL s => some s | _ => none)

/-! ## Loader (`LoadMigrations`, `FindMigrationsEx`) -/

/-- A directory entry passed to the loader: its base name, whether it
is a directory, and (for regular files) its contents. -/
structure FileEntry where
  name : String
  isDir : Bool
  body : String
deriving DecidableEq, Repr

/-- Whether a file name matches the source's `migrationPattern`, the Go
regular expression matching a whole name made of one or more ASCII
digits, an underscore, at least one further character, and the literal
suffix `.sql`.  In Go's RE2 syntax the dot of the middle part matches
any character except a newline, and since an underscore is not a digit,
every successful match takes the maximal digit run, so the regular
expression is equivalent to this decomposition. -/
def matchesMigrationPattern (s : String) : Bool :=
  let cs := s.toList
  let ds := cs.takeWhile Char.isDigit
  let rest := cs.dropWhile Char.isDigit
  !ds.isEmpty &&
    match rest with
    | '_' :: tail =>
      decide (5 ≤ tail.length) &&
        decide (tail.drop (tail.length - 4) = ['.', 's', 'q', 'l']) &&
        (tail.take (tail.length - 4)).all (fun c => c != '\n')
    | _ => false

/-- Source: `func FindMigrationsEx`.  Non-directory entries whose names
match `migrationPattern` are kept, in directory-listing order; anything
else is silently skipped.  (The source collects path-joined names and
takes the base name back when loading; the round trip is the
identity, so entries are kept whole here.) -/
def FindMigrationsEx (fileInfos : List FileEntry) : List FileEntry :=
  fileInfos.filter (fun fi => !fi.isDir && matchesMigrationPattern fi.name)

/-- Go `strings.SplitN(s, sep, 2)`: the text before the first
occurrence of `sep` and the remainder after it, or the whole string
when `sep` does not occur. -/
def splitN2 (s sep : String) : List String :=
  match s.splitOn sep with
  | [] => [s]
  | [piece] => [piece]
  | piece :: rest => [piece, String.intercalate sep rest]

/-- The delimiter line separating the up and down bodies of a
migration file. -/
def upDownDelimiter : String :=
  "---- create above / drop below ----"

/-- The per-line test of `LoadMigrations`' forward-SQL check: a line
counts as SQL when, after trimming whitespace, it is non-empty and does
not start with the single-line comment marker `--`.  (Go trims Unicode
whitespace; the migration bodies involved are ASCII, where the two
notions coincide.) -/
def lineIsSQL (v : String) : Bool :=
  let cleanString := v.trim
  decide (cleanString.length ≠ 0) && !(cleanString.startsWith "--")

/-- Source: the `containsSQL` loop in `LoadMigrations`, deciding
whether the rendered up-body holds at least one SQL line. -/
def containsSQL (upSQL : String) : Bool :=
  (upSQL.splitOn "\n").any lineIsSQL

/-- The up-body of a migration file: the text before the delimiter,
trimmed.  Template rendering (`evalMigration`) is the identity here:
the bodies the claims quantify over are template-free, and a rendering
failure is a distinct load error no claim touches. -/
def upBodyOf (f : FileEntry) : String :=
  ((splitN2 f.body upDownDelimiter).headD "").trim

/-- The down-body of a migration file: the text after the delimiter,
trimmed, or `""` when the delimiter is absent (`len(pieces) == 2`
guard).  An empty down-body marks the migration irreversible. -/
def downBodyOf (f : FileEntry) : String :=
  if (splitN2 f.body upDownDelimiter).length = 2 then
    ((splitN2 f.body upDownDelimiter).getD 1 "").trim
  else ""

/-- Source: `func (m *Migrator) AppendMigration`: store the migration
under its name, with a 1-based sequence taken from the current map
size.  Within one load the file base names are distinct, so the map
insert is an append. -/
def AppendMigration (migs : List Migration) (name upSQL downSQL : String) : List Migration :=
  migs ++ [⟨(migs.length : Int) + 1, name, upSQL, downSQL⟩]

/-- Errors of the load path that the claims distinguish
(source: `NoMigrationsFoundError`, `ErrNoFwMigration`). -/
inductive LoadErr where
  | noMigrationsFound (path : String)
  | errNoFwMigration
deriving DecidableEq, Repr

/-- The per-file loop of `LoadMigrations`: split each file on the
delimiter, check the up-body for SQL (failing the whole load with
`ErrNoFwMigration` otherwise), take the down-body when the delimiter is
present, and append the migration. -/
def loadFiles : List FileEntry → List Migration → Except LoadErr (List Migration)
  | [], migs => .ok migs
  | f :: rest, migs =>
    if !containsSQL (upBodyOf f) then .error .errNoFwMigration
    else loadFiles rest (AppendMigration migs f.name (upBodyOf f) (downBodyOf f))

/-- Source: `func (m *Migrator) LoadMigrations`.  After discovery, a
zero-length path list is rejected by the load itself with
`NoMigrationsFoundError`; otherwise every discovered file is parsed in
order.  (The shared-fragment glob and template registration affect only
rendering, which is the identity here.) -/
def LoadMigrations (path : String) (files : List FileEntry) : Except LoadErr (List Migration) :=
  let found := FindMigrationsEx files
  if found.length = 0 then .error (.noMigrationsFound path)
  else loadFiles found []

/-! ## Specification helpers

Derived forms of the executor used to state and prove the closed-form
behaviour of `runLoop`. -/

/-- The names the traversal loop actually processes: the longest prefix
of the traversal list that ends at the first occurrence of the target
(the whole list when the target never occurs, matching the loop's
early-exit test). -/
def takeUntilTarget (target : String) : List String → List String
  | [] => []
  | n :: rest => if target = n then [n] else n :: takeUntilTarget target rest

/-- The SQL body selected for one migration by the run direction. -/
def stepSQL (direction : MigraionDirection) (cur : Migration) : String :=
  if direction = .Forward then cur.UpSQL else cur.DownSQL

/-- The connection operations a successful step issues, in order. -/
def stepTrace (m : Migrator) (direction : MigraionDirection) (name : String)
    (cur : Migration) : List DBOp :=
  (if m.options.DisableTx then [] else [.beginTx]) ++
    (if stepSQL direction cur ≠ "" ∧ m.fake = false then [.execSQL (stepSQL direction cur)] else []) ++
    [.resetAll] ++
    [if direction = .Forward then .insertVersion name else .deleteVersion name] ++
    (if m.options.DisableTx then [] else [.commitTx])

/-- The `OnStart` invocations a step records (at most one). -/
def stepStarts (m : Migrator) (direction : MigraionDirection) (cur : Migration) : List StartCall :=
  if m.onStartSet then [⟨cur.Sequence, cur.Name, "", stepSQL direction cur⟩] else []

/-- How one successful step changes the version table: Forward appends
the name, Back deletes every row with the name. -/
def updApplied (direction : MigraionDirection) (a : List String) (n : String) : List String :=
  if direction = .Forward then a ++ [n] else a.filter (fun s => s != n)

/-- `stepTrace` looked up by name (empty for a missing name, a case the
closed-form lemmas exclude by hypothesis). -/
def stepTraceOf (m : Migrator) (direction : MigraionDirection) (n : String) : List DBOp :=
  match mapLookup m.Migrations n with
  | none => []
  | some cur => stepTrace m direction n cur

/-- `stepStarts` looked up by name. -/
def stepStartsOf (m : Migrator) (direction : MigraionDirection) (n : String) : List StartCall :=
  match mapLookup m.Migrations n with
  | none => []
  | some cur => stepStarts m direction cur

/-- The SQL body a (non-fake) step executes for a name: none when the
name is missing or the selected body is empty. -/
def sqlOf (m : Migrator) (direction : MigraionDirection) (n : String) : Option String :=
  match mapLookup m.Migrations n with
  | none => none
  | some cur => if stepSQL direction cur = "" then none else some (stepSQL direction cur)

/-! ## Concrete fixtures for witnesses and counterexamples -/

/-- A reversible migration creating `t1`. -/
def migA : Migration :=
  ⟨1, "001_a.sql", "create table t1(id int)", "drop table t1"⟩

/-- A migration creating `t2` whose down-body is empty (irreversible). -/
def migB : Migration :=
  ⟨2, "002_b.sql", "create table t2(id int)", ""⟩

/-- A reversible migration creating `t3`. -/
def migC : Migration :=
  ⟨3, "003_c.sql", "create table t3(id int)", "drop table t3"⟩

/-- A migrator with three reversible-or-not migrations, transactions
enabled, no callback, fake mode off. -/
def mgPlain : Migrator :=
  ⟨⟨false⟩, [migA, migB, migC], false, false⟩

/-- `mgPlain` with the `OnStart` callback set. -/
def mgObserved : Migrator :=
  ⟨⟨false⟩, [migA, migB, migC], true, false⟩

/-- `mgPlain` with fake mode enabled (spec-modelled `EnableFake`). -/
def mgFake : Migrator :=
  ⟨⟨false⟩, [migA, migB, migC], false, true⟩

/-- A migrator that knows only `migA`, while the version table may
still hold other names (a migration file removed from disk). -/
def mgMissing : Migrator :=
  ⟨⟨false⟩, [migA], false, false⟩

/-! ## Lemmas: the pure helpers -/

lemma PositionFrom_eq_neg_one {x : String} :
    ∀ (a : List String) (i : Int), x ∉ a → PositionFrom i a x = -1 := by
  intro a
  induction a with
  | nil => intro i _; rfl
  | cons s rest ih =>
    intro i h
    have hxs : x ≠ s := fun he => h (he ▸ List.mem_cons_self s rest)
    have hrest : x ∉ rest := fun hm => h (List.mem_cons_of_mem s hm)
    simp only [PositionFrom, if_neg hxs]
    exact ih (i + 1) hrest

lemma PositionFrom_nonneg {x : String} :
    ∀ (a : List String) (i : Int), x ∈ a → 0 ≤ i → 0 ≤ PositionFrom i a x := by
  intro a
  induction a with
  | nil => intro i h; cases h
  | cons s rest ih =>
    intro i h hi
    by_cases hxs : x = s
    · simp [PositionFrom, hxs, hi]
    · have hrest : x ∈ rest := by
        rcases List.mem_cons.mp h with he | hm
        · exact absurd he hxs
        · exact hm
      simp only [PositionFrom, if_neg hxs]
      exact ih (i + 1) hrest (by omega)

lemma Position_nonneg_iff {a : List String} {x : String} :
    0 ≤ Position a x ↔ x ∈ a := by
  constructor
  · intro h
    by_contra hx
    rw [Position, PositionFrom_eq_neg_one a 0 hx] at h
    omega
  · intro h
    exact PositionFrom_nonneg a 0 h le_rfl

lemma PositionFrom_append {x : String} (l2 : List String) :
    ∀ (l1 : List String) (i : Int), x ∉ l1 →
      PositionFrom i (l1 ++ x :: l2) x = i + l1.length := by
  intro l1
  induction l1 with
  | nil => intro i _; simp [PositionFrom]
  | cons s rest ih =>
    intro i h
    have hxs : x ≠ s := fun he => h (he ▸ List.mem_cons_self s rest)
    have hrest : x ∉ rest := fun hm => h (List.mem_cons_of_mem s hm)
    simp only [List.cons_append, PositionFrom, if_neg hxs, List.append_eq]
    rw [ih (i + 1) hrest]
    simp only [List.length_cons]
    push_cast
    ring

lemma backTraversal_eq {pre post : List String} {target : String} (h : target ∉ post) :
    backTraversal (pre ++ target :: post) target = post.reverse := by
  have hrev : (pre ++ target :: post).reverse = post.reverse ++ target :: pre.reverse := by
    simp
  have hmem : target ∉ post.reverse := by simpa using h
  rw [backTraversal, Reverse, hrev, Position, PositionFrom_append _ _ _ hmem]
  simp only [zero_add, Int.toNat_natCast]
  exact List.take_left _ _

lemma GetDirection_back {m : Migrator} {applied : List String} {target : String}
    (h : target ∈ applied) : GetDirection m applied target = .Back := by
  rw [GetDirection, if_pos (Position_nonneg_iff.mpr h)]

lemma GetDirection_forward {m : Migrator} {applied : List String} {target : String}
    (h1 : target ∉ applied) (h2 : (mapLookup m.Migrations target).isSome) :
    GetDirection m applied target = .Forward := by
  rw [GetDirection, if_neg (fun hp => h1 (Position_nonneg_iff.mp hp)), if_pos h2]

lemma GetDirection_notFound {m : Migrator} {applied : List String} {target : String}
    (h1 : target ∉ applied) (h2 : ¬ (mapLookup m.Migrations target).isSome) :
    GetDirection m applied target = .NotFound := by
  rw [GetDirection, if_neg (fun hp => h1 (Position_nonneg_iff.mp hp)), if_neg h2]

lemma mapLookup_isSome_iff {migs : List Migration} {n : String} :
    (mapLookup migs n).isSome ↔ ∃ mg ∈ migs, mg.Name = n := by
  rw [mapLookup, List.find?_isSome]
  simp

lemma mapLookup_isSome_of_mem_names {migs : List Migration} {n : String}
    (h : n ∈ migs.map Migration.Name) : (mapLookup migs n).isSome := by
  rcases List.mem_map.mp h with ⟨mg, hmg, hname⟩
  exact mapLookup_isSome_iff.mpr ⟨mg, hmg, hname⟩

lemma takeUntilTarget_of_not_mem {target : String} :
    ∀ {l : List String}, target ∉ l → takeUntilTarget target l = l := by
  intro l
  induction l with
  | nil => intro _; rfl
  | cons n rest ih =>
    intro h
    have hne : target ≠ n := fun he => h (he ▸ List.mem_cons_self n rest)
    have hrest : target ∉ rest := fun hm => h (List.mem_cons_of_mem n hm)
    rw [takeUntilTarget, if_neg hne, ih hrest]

lemma takeUntilTarget_append {target : String} (l2 : List String) :
    ∀ {l1 : List String}, target ∉ l1 →
      takeUntilTarget target (l1 ++ target :: l2) = l1 ++ [target] := by
  intro l1
  induction l1 with
  | nil => intro _; simp [takeUntilTarget]
  | cons s rest ih =>
    intro h
    have hne : target ≠ s := fun he => h (he ▸ List.mem_cons_self s rest)
    have hrest : target ∉ rest := fun hm => h (List.mem_cons_of_mem s hm)
    simp only [List.cons_append, takeUntilTarget, if_neg hne, List.append_eq]
    rw [ih hrest]

lemma takeUntilTarget_subset {target : String} :
    ∀ (l : List String), takeUntilTarget target l ⊆ l := by
  intro l
  induction l with
  | nil => exact fun _ h => h
  | cons n rest ih =>
    intro x hx
    rw [takeUntilTarget] at hx
    by_cases he : target = n
    · rw [if_pos he] at hx
      simp only [List.mem_singleton] at hx
      exact hx ▸ List.mem_cons_self n rest
    · rw [if_neg he] at hx
      rcases List.mem_cons.mp hx with h1 | h2
      · exact h1 ▸ List.mem_cons_self n rest
      · exact List.mem_cons_of_mem n (ih h2)

lemma exists_first_split {l : List String} {x : String} (h : x ∈ l) :
    ∃ l1 l2, l = l1 ++ x :: l2 ∧ x ∉ l1 := by
  induction l with
  | nil => cases h
  | cons a t ih =>
    by_cases he : a = x
    · exact ⟨[], t, by rw [he]; rfl, by simp⟩
    · rcases List.mem_cons.mp h with h1 | h2
      · exact absurd h1.symm he
      · rcases ih h2 with ⟨l1, l2, heq, hnm⟩
        refine ⟨a :: l1, l2, by rw [heq]; rfl, ?_⟩
        intro hx
        rcases List.mem_cons.mp hx with hh | ht
        · exact he hh.symm
        · exact hnm ht

lemma strLe_iff {a b : String} : strLe a b = true ↔ a ≤ b := by
  rw [strLe, Bool.not_eq_true', decide_eq_false_iff_not]
  constructor
  · intro h
    show ¬ b < a
    rw [String.lt_iff_toList_lt]
    exact h
  · intro h
    have h2 : ¬ b < a := h
    rw [String.lt_iff_toList_lt] at h2
    exact h2

lemma sortStrings_sorted (l : List String) : List.Sorted (· ≤ ·) (sortStrings l) :=
  (List.sorted_insertionSort _ l).imp (fun h => strLe_iff.mp h)

lemma sortStrings_perm (l : List String) : List.Perm (sortStrings l) l :=
  List.perm_insertionSort _ l

lemma mem_sortStrings {l : List String} {x : String} : x ∈ sortStrings l ↔ x ∈ l :=
  List.mem_insertionSort _

lemma MigrationsToApply_perm (m : Migrator) (applied : List String) :
    List.Perm (MigrationsToApply m applied)
      ((m.Migrations.map Migration.Name).filter (fun n => !(applied.contains n))) := by
  have h2 : (m.Migrations.map Migration.Name).filter (fun n => !(applied.contains n)) =
      (m.Migrations.filter (fun mg => !(applied.contains mg.Name))).map Migration.Name := by
    rw [List.filter_map]
    rfl
  rw [h2]
  exact sortStrings_perm _

lemma MigrationsToApply_sorted (m : Migrator) (applied : List String) :
    List.Sorted (· ≤ ·) (MigrationsToApply m applied) :=
  sortStrings_sorted _

lemma mem_MigrationsToApply {m : Migrator} {applied : List String} {target : String}
    (h1 : target ∉ applied) (h2 : (mapLookup m.Migrations target).isSome) :
    target ∈ MigrationsToApply m applied := by
  rcases mapLookup_isSome_iff.mp h2 with ⟨mg, hmg, hname⟩
  rw [MigrationsToApply, mem_sortStrings]
  refine List.mem_map.mpr ⟨mg, List.mem_filter.mpr ⟨hmg, ?_⟩, hname⟩
  rw [hname]
  simpa using h1

lemma MigrationsToApply_subset_names (m : Migrator) (applied : List String) :
    MigrationsToApply m applied ⊆ m.Migrations.map Migration.Name := by
  intro x hx
  rw [MigrationsToApply, mem_sortStrings] at hx
  rcases List.mem_map.mp hx with ⟨mg, hmg, hname⟩
  exact List.mem_map.mpr ⟨mg, List.mem_filter.mp hmg |>.1, hname⟩

/-! ## Lemmas: the executor -/

lemma runStep_noFail {m : Migrator} {direction : MigraionDirection} {name : String}
    {cur : Migration} (st : LoopSt) (h : mapLookup m.Migrations name = some cur) :
    runStep m noFail direction name st =
      (.ok, ⟨updApplied direction st.applied name,
             st.trace ++ stepTrace m direction name cur,
             st.starts ++ stepStarts m direction cur⟩) := by
  simp only [runStep, h, noFail, doOp]
  by_cases hdirf : direction = MigraionDirection.Forward <;>
    cases hdt : m.options.DisableTx <;>
    cases hos : m.onStartSet <;>
    cases hf : m.fake <;>
    by_cases hup : (if direction = MigraionDirection.Forward then cur.UpSQL else cur.DownSQL) = "" <;>
    simp_all [stepTrace, stepStarts, stepSQL, updApplied]

lemma insertions_append (t1 t2 : List DBOp) :
    insertions (t1 ++ t2) = insertions t1 ++ insertions t2 :=
  List.filterMap_append _ _ _

lemma deletions_append (t1 t2 : List DBOp) :
    deletions (t1 ++ t2) = deletions t1 ++ deletions t2 :=
  List.filterMap_append _ _ _

lemma executions_append (t1 t2 : List DBOp) :
    executions (t1 ++ t2) = executions t1 ++ executions t2 :=
  List.filterMap_append _ _ _

lemma insertions_stepTrace (m : Migrator) (direction : MigraionDirection)
    (name : String) (cur : Migration) :
    insertions (stepTrace m direction name cur) =
      if direction = .Forward then [name] else [] := by
  by_cases hdirf : direction = MigraionDirection.Forward <;>
    cases hdt : m.options.DisableTx <;>
    cases hf : m.fake <;>
    by_cases hup : stepSQL direction cur = "" <;>
    simp_all [stepTrace, insertions]

lemma deletions_stepTrace (m : Migrator) (direction : MigraionDirection)
    (name : String) (cur : Migration) :
    deletions (stepTrace m direction name cur) =
      if direction = .Forward then [] else [name] := by
  by_cases hdirf : direction = MigraionDirection.Forward <;>
    cases hdt : m.options.DisableTx <;>
    cases hf : m.fake <;>
    by_cases hup : stepSQL direction cur = "" <;>
    simp_all [stepTrace, deletions]

lemma executions_stepTrace (m : Migrator) (direction : MigraionDirection)
    (name : String) (cur : Migration) :
    executions (stepTrace m direction name cur) =
      if stepSQL direction cur ≠ "" ∧ m.fake = false then [stepSQL direction cur] else [] := by
  by_cases hdirf : direction = MigraionDirection.Forward <;>
    cases hdt : m.options.DisableTx <;>
    cases hf : m.fake <;>
    by_cases hup : stepSQL direction cur = "" <;>
    simp_all [stepTrace, executions]

lemma runLoop_noFail (m : Migrator) (direction : MigraionDirection) (target : String) :
    ∀ (names : List String) (st : LoopSt),
      (∀ n ∈ takeUntilTarget target names, (mapLookup m.Migrations n).isSome) →
      runLoop m noFail direction target names st =
        ⟨.ok, ⟨(takeUntilTarget target names).foldl (updApplied direction) st.applied,
               st.trace ++ ((takeUntilTarget target names).map (stepTraceOf m direction)).flatten,
               st.starts ++ ((takeUntilTarget target names).map (stepStartsOf m direction)).flatten⟩⟩ := by
  intro names
  induction names with
  | nil => intro st _; simp [runLoop, takeUntilTarget]
  | cons n rest ih =>
    intro st hk
    have hn : (mapLookup m.Migrations n).isSome := by
      apply hk
      rw [takeUntilTarget]
      by_cases he : target = n
      · rw [if_pos he]; exact List.mem_singleton.mpr rfl
      · rw [if_neg he]; exact List.mem_cons_self _ _
    rcases Option.isSome_iff_exists.mp hn with ⟨cur, hcur⟩
    rw [runLoop, runStep_noFail st hcur]
    dsimp only
    by_cases he : target = n
    · rw [if_pos he]
      simp [takeUntilTarget, if_pos he, stepTraceOf, stepStartsOf, hcur]
    · rw [if_neg he]
      rw [ih _ (by
        intro x hx
        apply hk
        rw [takeUntilTarget, if_neg he]
        exact List.mem_cons_of_mem _ hx)]
      simp [takeUntilTarget, if_neg he, stepTraceOf, stepStartsOf, hcur, List.append_assoc]

lemma insertions_flatten (m : Migrator) (direction : MigraionDirection) :
    ∀ (names : List String), (∀ n ∈ names, (mapLookup m.Migrations n).isSome) →
      insertions ((names.map (stepTraceOf m direction)).flatten) =
        if direction = .Forward then names else [] := by
  intro names
  induction names with
  | nil => intro _; by_cases hdirf : direction = MigraionDirection.Forward <;> simp [insertions, hdirf]
  | cons n rest ih =>
    intro hk
    rcases Option.isSome_iff_exists.mp (hk n (List.mem_cons_self _ _)) with ⟨cur, hcur⟩
    have hrest := ih (fun x hx => hk x (List.mem_cons_of_mem _ hx))
    simp only [List.map_cons, List.flatten_cons, insertions_append, hrest, stepTraceOf, hcur,
      insertions_stepTrace]
    by_cases hdirf : direction = MigraionDirection.Forward <;> simp [hdirf]

lemma deletions_flatten (m : Migrator) (direction : MigraionDirection) :
    ∀ (names : List String), (∀ n ∈ names, (mapLookup m.Migrations n).isSome) →
      deletions ((names.map (stepTraceOf m direction)).flatten) =
        if direction = .Forward then [] else names := by
  intro names
  induction names with
  | nil => intro _; by_cases hdirf : direction = MigraionDirection.Forward <;> simp [deletions, hdirf]
  | cons n rest ih =>
    intro hk
    rcases Option.isSome_iff_exists.mp (hk n (List.mem_cons_self _ _)) with ⟨cur, hcur⟩
    have hrest := ih (fun x hx => hk x (List.mem_cons_of_mem _ hx))
    simp only [List.map_cons, List.flatten_cons, deletions_append, hrest, stepTraceOf, hcur,
      deletions_stepTrace]
    by_cases hdirf : direction = MigraionDirection.Forward <;> simp [hdirf]

lemma executions_flatten (m : Migrator) (direction : MigraionDirection) (hf : m.fake = false) :
    ∀ (names : List String), (∀ n ∈ names, (mapLookup m.Migrations n).isSome) →
      executions ((names.map (stepTraceOf m direction)).flatten) =
        names.filterMap (sqlOf m direction) := by
  intro names
  induction names with
  | nil => intro _; simp [executions]
  | cons n rest ih =>
    intro hk
    rcases Option.isSome_iff_exists.mp (hk n (List.mem_cons_self _ _)) with ⟨cur, hcur⟩
    have hrest := ih (fun x hx => hk x (List.mem_cons_of_mem _ hx))
    simp only [List.map_cons, List.flatten_cons, executions_append, hrest, stepTraceOf, hcur,
      executions_stepTrace, List.filterMap_cons, sqlOf]
    by_cases hup : stepSQL direction cur = "" <;> simp [hup, hf]

lemma foldl_updApplied_forward :
    ∀ (names : List String) (a : List String),
      names.foldl (updApplied .Forward) a = a ++ names := by
  intro names
  induction names with
  | nil => intro a; simp
  | cons n rest ih =>
    intro a
    simp only [List.foldl_cons, updApplied, if_pos rfl]
    rw [ih]
    simp

lemma foldl_updApplied_back :
    ∀ (names : List String) (a : List String),
      names.foldl (updApplied .Back) a = a.filter (fun s => !(names.contains s)) := by
  intro names
  induction names with
  | nil => intro a; simp
  | cons n rest ih =>
    intro a
    simp only [List.foldl_cons]
    have hstep : updApplied .Back a n = a.filter (fun s => s != n) := by
      simp [updApplied]
    rw [hstep, ih, List.filter_filter]
    apply List.filter_congr
    intro x _
    by_cases hxn : x = n <;> by_cases hxr : x ∈ rest <;> simp [hxn, hxr]

lemma filter_back_final {pre post : List String} {target : String}
    (hnodup : (pre ++ target :: post).Nodup) :
    (pre ++ target :: post).filter (fun s => !((post.reverse).contains s)) = pre ++ [target] := by
  have hnd := List.nodup_append.mp hnodup
  have htp : target ∉ post := (List.nodup_cons.mp hnd.2.1).1
  have hdisj : ∀ s ∈ pre, s ∉ post := fun s hs hmem =>
    hnd.2.2 hs (List.mem_cons_of_mem _ hmem)
  have h1 : pre.filter (fun s => !((post.reverse).contains s)) = pre := by
    apply List.filter_eq_self.mpr
    intro s hs
    simp [List.mem_reverse, hdisj s hs]
  have h2 : post.filter (fun s => !((post.reverse).contains s)) = [] := by
    apply List.filter_eq_nil_iff.mpr
    intro s hs
    simp [List.mem_reverse, hs]
  have h3 : (fun s => !((post.reverse).contains s)) target = true := by
    simp [List.mem_reverse, htp]
  rw [List.filter_append, List.filter_cons, h1, h2, if_pos h3]

lemma MigrateToInner_back {m : Migrator} {beh : DBBehavior} {applied : List String}
    {target : String} {st : LoopSt} (h : GetDirection m applied target = .Back) :
    MigrateToInner m beh applied target st =
      runLoop m beh .Back target (backTraversal applied target) st := by
  rw [MigrateToInner, h]

lemma MigrateToInner_forward {m : Migrator} {beh : DBBehavior} {applied : List String}
    {target : String} {st : LoopSt} (h : GetDirection m applied target = .Forward) :
    MigrateToInner m beh applied target st =
      runLoop m beh .Forward target (MigrationsToApply m applied) st := by
  rw [MigrateToInner, h]

lemma MigrateToInner_notFound {m : Migrator} {beh : DBBehavior} {applied : List String}
    {target : String} {st : LoopSt} (h : GetDirection m applied target = .NotFound) :
    MigrateToInner m beh applied target st = ⟨.errored (.migrationNotFound target), st⟩ := by
  rw [MigrateToInner, h]

lemma MigrateTo_eq {m : Migrator} {beh : DBBehavior} {applied : List String} {target : String}
    (ha : beh.opFails .acquireLock = false) :
    MigrateTo m beh applied target =
      ⟨(match (MigrateToInner m beh applied target ⟨applied, [.acquireLock], []⟩).result,
              beh.opFails .releaseLock with
        | .ok, true => .errored (.dbError .releaseLock)
        | r, _ => r),
       ⟨(MigrateToInner m beh applied target ⟨applied, [.acquireLock], []⟩).st.applied,
        (MigrateToInner m beh applied target ⟨applied, [.acquireLock], []⟩).st.trace ++ [.releaseLock],
        (MigrateToInner m beh applied target ⟨applied, [.acquireLock], []⟩).st.starts⟩⟩ := by
  rw [MigrateTo]
  simp only [doOp, ha, Bool.false_eq_true, if_false, List.nil_append]

lemma MigrateTo_noFail_eq (m : Migrator) (applied : List String) (target : String) :
    MigrateTo m noFail applied target =
      ⟨(MigrateToInner m noFail applied target ⟨applied, [.acquireLock], []⟩).result,
       ⟨(MigrateToInner m noFail applied target ⟨applied, [.acquireLock], []⟩).st.applied,
        (MigrateToInner m noFail applied target ⟨applied, [.acquireLock], []⟩).st.trace ++ [.releaseLock],
        (MigrateToInner m noFail applied target ⟨applied, [.acquireLock], []⟩).st.starts⟩⟩ := by
  rw [MigrateTo_eq (by rfl)]
  rcases hres : (MigrateToInner m noFail applied target ⟨applied, [.acquireLock], []⟩).result <;>
    simp [hres, noFail]

lemma back_run_spec (m : Migrator) (pre post : List String) (target : String)
    (hnodup : (pre ++ target :: post).Nodup)
    (hk : ∀ n ∈ post, (mapLookup m.Migrations n).isSome) :
    (MigrateTo m noFail (pre ++ target :: post) target).result = .ok
    ∧ deletions (MigrateTo m noFail (pre ++ target :: post) target).st.trace = post.reverse
    ∧ (MigrateTo m noFail (pre ++ target :: post) target).st.applied = pre ++ [target] := by
  have hnd := List.nodup_append.mp hnodup
  have htp : target ∉ post := (List.nodup_cons.mp hnd.2.1).1
  have htpr : target ∉ post.reverse := by simpa [List.mem_reverse] using htp
  have hbt : backTraversal (pre ++ target :: post) target = post.reverse := backTraversal_eq htp
  have hmem : target ∈ pre ++ target :: post := by simp
  have hkrev : ∀ n ∈ post.reverse, (mapLookup m.Migrations n).isSome := by
    intro n hn
    exact hk n (List.mem_reverse.mp hn)
  have htur : takeUntilTarget target post.reverse = post.reverse :=
    takeUntilTarget_of_not_mem htpr
  have hloop := runLoop_noFail m .Back target post.reverse
    ⟨pre ++ target :: post, [.acquireLock], []⟩ (by rw [htur]; exact hkrev)
  rw [htur] at hloop
  have hinner : MigrateToInner m noFail (pre ++ target :: post) target
      ⟨pre ++ target :: post, [.acquireLock], []⟩ =
      ⟨.ok, ⟨post.reverse.foldl (updApplied .Back) (pre ++ target :: post),
             [.acquireLock] ++ ((post.reverse.map (stepTraceOf m .Back)).flatten),
             [] ++ ((post.reverse.map (stepStartsOf m .Back)).flatten)⟩⟩ := by
    rw [MigrateToInner_back (GetDirection_back hmem), hbt, hloop]
  refine ⟨?_, ?_, ?_⟩
  · rw [MigrateTo_noFail_eq, hinner]
  · rw [MigrateTo_noFail_eq, hinner]
    show deletions (([.acquireLock] ++ ((post.reverse.map (stepTraceOf m .Back)).flatten))
      ++ [DBOp.releaseLock]) = post.reverse
    rw [deletions_append, deletions_append, deletions_flatten m .Back post.reverse hkrev]
    simp [deletions]
  · rw [MigrateTo_noFail_eq, hinner]
    show post.reverse.foldl (updApplied .Back) (pre ++ target :: post) = pre ++ [target]
    rw [foldl_updApplied_back]
    exact filter_back_final hnodup

lemma forward_run_spec (m : Migrator) (applied : List String) (target : String)
    (hnotapp : target ∉ applied)
    (hknown : (mapLookup m.Migrations target).isSome) :
    ∃ pre2 rest,
      MigrationsToApply m applied = pre2 ++ target :: rest
      ∧ target ∉ pre2
      ∧ (MigrateTo m noFail applied target).result = .ok
      ∧ insertions (MigrateTo m noFail applied target).st.trace = pre2 ++ [target]
      ∧ (m.fake = false →
          executions (MigrateTo m noFail applied target).st.trace =
            (pre2 ++ [target]).filterMap (sqlOf m .Forward))
      ∧ (MigrateTo m noFail applied target).st.applied = applied ++ (pre2 ++ [target]) := by
  have hdir := GetDirection_forward hnotapp hknown
  have hmemS : target ∈ MigrationsToApply m applied := mem_MigrationsToApply hnotapp hknown
  rcases exists_first_split hmemS with ⟨pre2, rest, hsplit, hnp⟩
  have htu : takeUntilTarget target (MigrationsToApply m applied) = pre2 ++ [target] := by
    rw [hsplit]
    exact takeUntilTarget_append _ hnp
  have hkS : ∀ n ∈ pre2 ++ [target], (mapLookup m.Migrations n).isSome := by
    intro n hn
    apply mapLookup_isSome_of_mem_names
    apply MigrationsToApply_subset_names m applied
    rw [hsplit]
    rcases List.mem_append.mp hn with h1 | h2
    · exact List.mem_append_left _ h1
    · rw [List.mem_singleton] at h2
      subst h2
      exact List.mem_append_right _ (List.mem_cons_self _ _)
  have hloop := runLoop_noFail m .Forward target (MigrationsToApply m applied)
    ⟨applied, [.acquireLock], []⟩ (by rw [htu]; exact hkS)
  rw [htu] at hloop
  have hinner : MigrateToInner m noFail applied target ⟨applied, [.acquireLock], []⟩ =
      ⟨.ok, ⟨(pre2 ++ [target]).foldl (updApplied .Forward) applied,
             [.acquireLock] ++ (((pre2 ++ [target]).map (stepTraceOf m .Forward)).flatten),
             [] ++ (((pre2 ++ [target]).map (stepStartsOf m .Forward)).flatten)⟩⟩ := by
    rw [MigrateToInner_forward hdir, hloop]
  refine ⟨pre2, rest, hsplit, hnp, ?_, ?_, ?_, ?_⟩
  · rw [MigrateTo_noFail_eq, hinner]
  · rw [MigrateTo_noFail_eq, hinner]
    show insertions (([.acquireLock] ++ (((pre2 ++ [target]).map (stepTraceOf m .Forward)).flatten))
      ++ [DBOp.releaseLock]) = pre2 ++ [target]
    rw [insertions_append, insertions_append,
      insertions_flatten m .Forward (pre2 ++ [target]) hkS]
    simp [insertions]
  · intro hfake
    rw [MigrateTo_noFail_eq, hinner]
    show executions (([.acquireLock] ++ (((pre2 ++ [target]).map (stepTraceOf m .Forward)).flatten))
      ++ [DBOp.releaseLock]) = (pre2 ++ [target]).filterMap (sqlOf m .Forward)
    rw [executions_append, executions_append,
      executions_flatten m .Forward hfake (pre2 ++ [target]) hkS]
    simp [executions]
  · rw [MigrateTo_noFail_eq, hinner]
    show (pre2 ++ [target]).foldl (updApplied .Forward) applied = applied ++ (pre2 ++ [target])
    exact foldl_updApplied_forward _ _

set_option maxHeartbeats 1000000 in
lemma executions_runStep_fake {m : Migrator} (hf : m.fake = true) (beh : DBBehavior)
    (direction : MigraionDirection) (name : String) (st : LoopSt) :
    executions (runStep m beh direction name st).2.trace = executions st.trace := by
  rcases hl : mapLookup m.Migrations name with _ | cur
  · simp [runStep, hl]
  · simp only [runStep, hl, doOp]
    by_cases hdirf : direction = MigraionDirection.Forward <;>
      cases hdt : m.options.DisableTx <;>
      cases hos : m.onStartSet <;>
      cases hb1 : beh.opFails DBOp.beginTx <;>
      cases hb2 : beh.opFails (DBOp.insertVersion name) <;>
      cases hb3 : beh.opFails (DBOp.deleteVersion name) <;>
      cases hb4 : beh.opFails DBOp.commitTx <;>
      simp_all [executions]

lemma executions_runLoop_fake {m : Migrator} (hf : m.fake = true) (beh : DBBehavior)
    (direction : MigraionDirection) (target : String) :
    ∀ (names : List String) (st : LoopSt),
      executions (runLoop m beh direction target names st).st.trace = executions st.trace := by
  intro names
  induction names with
  | nil => intro st; rfl
  | cons n rest ih =>
    intro st
    have hstep := executions_runStep_fake hf beh direction n st
    rcases hrs : runStep m beh direction n st with ⟨r, st1⟩
    rw [hrs] at hstep
    rw [runLoop, hrs]
    cases r with
    | ok =>
      dsimp only
      by_cases he : target = n
      · rw [if_pos he]
        exact hstep
      · rw [if_neg he, ih st1]
        exact hstep
    | errored e => exact hstep
    | panicked => exact hstep

lemma executions_MigrateToInner_fake {m : Migrator} (hf : m.fake = true) (beh : DBBehavior)
    (applied : List String) (target : String) (st : LoopSt) :
    executions (MigrateToInner m beh applied target st).st.trace = executions st.trace := by
  cases hd : GetDirection m applied target with
  | Back =>
    rw [MigrateToInner_back hd]
    exact executions_runLoop_fake hf beh .Back target _ st
  | Forward =>
    rw [MigrateToInner_forward hd]
    exact executions_runLoop_fake hf beh .Forward target _ st
  | NotFound =>
    rw [MigrateToInner_notFound hd]

lemma executions_MigrateTo_fake {m : Migrator} (hf : m.fake = true) (beh : DBBehavior)
    (applied : List String) (target : String) :
    executions (MigrateTo m beh applied target).st.trace = [] := by
  cases ha : beh.opFails .acquireLock with
  | false =>
    rw [MigrateTo_eq ha]
    show executions ((MigrateToInner m beh applied target
      ⟨applied, [.acquireLock], []⟩).st.trace ++ [DBOp.releaseLock]) = []
    rw [executions_append, executions_MigrateToInner_fake hf]
    simp [executions]
  | true =>
    rw [MigrateTo]
    simp [doOp, ha, executions]

/-! ## Claim theorems -/

/-- C1: a `MigrateTo` call resolved to the `Back` direction with a
target present in the applied-names sequence traverses exactly the
reversed applied sequence truncated strictly before the target's
position: every migration applied after the target is reverted (its
version row deleted), most recent first; the target itself is not
reverted; and the target is the most recent applied entry afterwards. -/
theorem back_run_reverts_exactly_later_migrations
    (m : Migrator) (pre post : List String) (target : String)
    (hnodup : (pre ++ target :: post).Nodup)
    (hk : ∀ n ∈ post, (mapLookup m.Migrations n).isSome) :
    backTraversal (pre ++ target :: post) target = post.reverse
    ∧ (MigrateTo m noFail (pre ++ target :: post) target).result = .ok
    ∧ deletions (MigrateTo m noFail (pre ++ target :: post) target).st.trace = post.reverse
    ∧ target ∉ deletions (MigrateTo m noFail (pre ++ target :: post) target).st.trace
    ∧ (MigrateTo m noFail (pre ++ target :: post) target).st.applied = pre ++ [target]
    ∧ (MigrateTo m noFail (pre ++ target :: post) target).st.applied.getLast? = some target := by
  obtain ⟨hok, hdel, happ⟩ := back_run_spec m pre post target hnodup hk
  have htp : target ∉ post := (List.nodup_cons.mp (List.nodup_append.mp hnodup).2.1).1
  have htpr : target ∉ post.reverse := by simpa [List.mem_reverse] using htp
  refine ⟨backTraversal_eq htp, hok, hdel, ?_, happ, ?_⟩
  · rw [hdel]
    exact htpr
  · rw [happ]
    exact List.getLast?_concat _

/-- Witness for C1 at a concrete input: applied `[A, B, C]`, target
`A`; the run reverts `C` then `B` and leaves exactly `[A]` applied. -/
theorem back_run_reverts_exactly_later_migrations_witness :
    backTraversal ["001_a.sql", "002_b.sql", "003_c.sql"] "001_a.sql" =
      ["002_b.sql", "003_c.sql"].reverse
    ∧ (MigrateTo mgPlain noFail ["001_a.sql", "002_b.sql", "003_c.sql"] "001_a.sql").result = .ok
    ∧ deletions (MigrateTo mgPlain noFail ["001_a.sql", "002_b.sql", "003_c.sql"]
        "001_a.sql").st.trace = ["002_b.sql", "003_c.sql"].reverse
    ∧ "001_a.sql" ∉ deletions (MigrateTo mgPlain noFail ["001_a.sql", "002_b.sql", "003_c.sql"]
        "001_a.sql").st.trace
    ∧ (MigrateTo mgPlain noFail ["001_a.sql", "002_b.sql", "003_c.sql"]
        "001_a.sql").st.applied = [] ++ ["001_a.sql"]
    ∧ (MigrateTo mgPlain noFail ["001_a.sql", "002_b.sql", "003_c.sql"]
        "001_a.sql").st.applied.getLast? = some "001_a.sql" :=
  back_run_reverts_exactly_later_migrations mgPlain [] ["002_b.sql", "003_c.sql"] "001_a.sql"
    (by decide) (by decide)

/-- C2: a `MigrateTo` call resolved to the `Forward` direction executes
exactly the pending names (known minus applied) sorted ascending by
name, in that order, stopping immediately after processing the target:
the version-table inserts are the sorted pending list's prefix ending
at the target (inclusive), nothing after the target runs, and the SQL
bodies executed are exactly those of that prefix. -/
theorem forward_run_applies_sorted_pending_up_to_target
    (m : Migrator) (applied : List String) (target : String)
    (hnotapp : target ∉ applied)
    (hknown : (mapLookup m.Migrations target).isSome)
    (hfake : m.fake = false) :
    GetDirection m applied target = .Forward
    ∧ List.Sorted (· ≤ ·) (MigrationsToApply m applied)
    ∧ List.Perm (MigrationsToApply m applied)
        ((m.Migrations.map Migration.Name).filter (fun n => !(applied.contains n)))
    ∧ ∃ pre2 rest,
        MigrationsToApply m applied = pre2 ++ target :: rest
        ∧ target ∉ pre2
        ∧ (MigrateTo m noFail applied target).result = .ok
        ∧ insertions (MigrateTo m noFail applied target).st.trace = pre2 ++ [target]
        ∧ executions (MigrateTo m noFail applied target).st.trace =
            (pre2 ++ [target]).filterMap (sqlOf m .Forward)
        ∧ (MigrateTo m noFail applied target).st.applied = applied ++ (pre2 ++ [target]) := by
  obtain ⟨pre2, rest, hsplit, hnp, hok, hins, hexec, happ⟩ :=
    forward_run_spec m applied target hnotapp hknown
  exact ⟨GetDirection_forward hnotapp hknown, MigrationsToApply_sorted m applied,
    MigrationsToApply_perm m applied, pre2, rest, hsplit, hnp, hok, hins, hexec hfake, happ⟩

/-- Witness for C2 at a concrete input: empty applied set, target
`002_b.sql`; migrations 001 and 002 run in order, 003 does not. -/
theorem forward_run_applies_sorted_pending_up_to_target_witness :
    GetDirection mgPlain [] "002_b.sql" = .Forward
    ∧ List.Sorted (· ≤ ·) (MigrationsToApply mgPlain [])
    ∧ List.Perm (MigrationsToApply mgPlain [])
        ((mgPlain.Migrations.map Migration.Name).filter (fun n => !(([] : List String).contains n)))
    ∧ ∃ pre2 rest,
        MigrationsToApply mgPlain [] = pre2 ++ "002_b.sql" :: rest
        ∧ "002_b.sql" ∉ pre2
        ∧ (MigrateTo mgPlain noFail [] "002_b.sql").result = .ok
        ∧ insertions (MigrateTo mgPlain noFail [] "002_b.sql").st.trace = pre2 ++ ["002_b.sql"]
        ∧ executions (MigrateTo mgPlain noFail [] "002_b.sql").st.trace =
            (pre2 ++ ["002_b.sql"]).filterMap (sqlOf mgPlain .Forward)
        ∧ (MigrateTo mgPlain noFail [] "002_b.sql").st.applied = [] ++ (pre2 ++ ["002_b.sql"]) :=
  forward_run_applies_sorted_pending_up_to_target mgPlain [] "002_b.sql"
    (by decide) (by decide) (by decide)

/-- C3: direction resolution returns `Back` when the target appears in
the applied names, else `Forward` when the target is a known migration,
else `NotFound`; and a `MigrateTo` call whose target resolves to
`NotFound` fails with the migration-not-found error having executed no
migration SQL and touched no version-table row. -/
theorem direction_resolution_spec (m : Migrator) (applied : List String) (target : String) :
    (GetDirection m applied target =
      if target ∈ applied then .Back
      else if (mapLookup m.Migrations target).isSome then .Forward
      else .NotFound)
    ∧ (∀ beh : DBBehavior, beh.opFails .acquireLock = false →
        GetDirection m applied target = .NotFound →
          (MigrateTo m beh applied target).result = .errored (.migrationNotFound target)
          ∧ executions (MigrateTo m beh applied target).st.trace = []
          ∧ insertions (MigrateTo m beh applied target).st.trace = []
          ∧ deletions (MigrateTo m beh applied target).st.trace = []) := by
  constructor
  · by_cases hmem : target ∈ applied
    · rw [if_pos hmem]
      exact GetDirection_back hmem
    · rw [if_neg hmem]
      by_cases hks : (mapLookup m.Migrations target).isSome
      · rw [if_pos hks]
        exact GetDirection_forward hmem hks
      · rw [if_neg hks]
        exact GetDirection_notFound hmem hks
  · intro beh ha hnf
    rw [MigrateTo_eq ha, MigrateToInner_notFound hnf]
    cases hb : beh.opFails .releaseLock <;>
      simp [hb, executions, insertions, deletions]

/-- Witness for C3 at a concrete input: an unknown target fails with
the not-found error and leaves the database untouched. -/
theorem direction_resolution_spec_witness :
    (MigrateTo mgPlain noFail ["001_a.sql"] "999_zzz.sql").result =
      .errored (.migrationNotFound "999_zzz.sql")
    ∧ executions (MigrateTo mgPlain noFail ["001_a.sql"] "999_zzz.sql").st.trace = []
    ∧ insertions (MigrateTo mgPlain noFail ["001_a.sql"] "999_zzz.sql").st.trace = []
    ∧ deletions (MigrateTo mgPlain noFail ["001_a.sql"] "999_zzz.sql").st.trace = [] :=
  (direction_resolution_spec mgPlain ["001_a.sql"] "999_zzz.sql").2 noFail (by rfl) (by decide)

/-- C4: under fake mode no migration SQL body is ever executed, for any
behaviour of the database; and under a failure-free database the
version-table recording still happens exactly as in a normal run:
inserts for a Forward traversal, deletes for a Back traversal. -/
theorem fake_mode_records_without_executing
    (m : Migrator) (beh : DBBehavior) (applied : List String) (target : String)
    (hfake : m.fake = true) :
    executions (MigrateTo m beh applied target).st.trace = []
    ∧ (target ∉ applied → (mapLookup m.Migrations target).isSome →
        ∃ pre2 rest,
          MigrationsToApply m applied = pre2 ++ target :: rest
          ∧ target ∉ pre2
          ∧ (MigrateTo m noFail applied target).result = .ok
          ∧ insertions (MigrateTo m noFail applied target).st.trace = pre2 ++ [target]
          ∧ (MigrateTo m noFail applied target).st.applied = applied ++ (pre2 ++ [target]))
    ∧ (∀ pre post, applied = pre ++ target :: post → applied.Nodup →
        (∀ n ∈ post, (mapLookup m.Migrations n).isSome) →
        (MigrateTo m noFail applied target).result = .ok
        ∧ deletions (MigrateTo m noFail applied target).st.trace = post.reverse
        ∧ (MigrateTo m noFail applied target).st.applied = pre ++ [target]) := by
  refine ⟨executions_MigrateTo_fake hfake beh applied target, ?_, ?_⟩
  · intro hnotapp hknown
    obtain ⟨pre2, rest, hsplit, hnp, hok, hins, _, happ⟩ :=
      forward_run_spec m applied target hnotapp hknown
    exact ⟨pre2, rest, hsplit, hnp, hok, hins, happ⟩
  · intro pre post heq hnodup hk
    subst heq
    exact back_run_spec m pre post target hnodup hk

/-- Witness for C4 at a concrete input: a fake forward run to
`002_b.sql` records the version rows while executing no SQL. -/
theorem fake_mode_records_without_executing_witness :
    executions (MigrateTo mgFake noFail [] "002_b.sql").st.trace = []
    ∧ ∃ pre2 rest,
        MigrationsToApply mgFake [] = pre2 ++ "002_b.sql" :: rest
        ∧ "002_b.sql" ∉ pre2
        ∧ (MigrateTo mgFake noFail [] "002_b.sql").result = .ok
        ∧ insertions (MigrateTo mgFake noFail [] "002_b.sql").st.trace = pre2 ++ ["002_b.sql"]
        ∧ (MigrateTo mgFake noFail [] "002_b.sql").st.applied = [] ++ (pre2 ++ ["002_b.sql"]) := by
  have h := fake_mode_records_without_executing mgFake noFail [] "002_b.sql" rfl
  exact ⟨h.1, h.2.1 (by decide) (by decide)⟩

/-- C5 (evaluation at the failing input): reverting past `002_b.sql`,
whose down-body is empty, does not fail with the irreversible-migration
error; the run succeeds, executes nothing, and still deletes the
version-table row — the source's `IrreversibleMigrationError` check is
commented out in `MigrateTo`. -/
theorem empty_down_body_is_silently_unapplied :
    (MigrateTo mgPlain noFail ["001_a.sql", "002_b.sql"] "001_a.sql").result = .ok
    ∧ deletions (MigrateTo mgPlain noFail ["001_a.sql", "002_b.sql"]
        "001_a.sql").st.trace = ["002_b.sql"]
    ∧ (MigrateTo mgPlain noFail ["001_a.sql", "002_b.sql"] "001_a.sql").st.applied = ["001_a.sql"]
    ∧ executions (MigrateTo mgPlain noFail ["001_a.sql", "002_b.sql"] "001_a.sql").st.trace = [] := by
  decide

/-- C6 (counterexample): with a readable directory holding one file
that does not match the migration pattern, the core load itself fails
with the no-migrations-found error instead of succeeding with an empty
set. -/
theorem load_zero_matches_counterexample :
    LoadMigrations "migrations" [⟨"README.md", false, "hello"⟩] =
      .error (.noMigrationsFound "migrations") := by
  rfl

/-- C6 (amended): for every readable directory with zero files matching
the migration name pattern, the core load operation itself fails with
the no-migrations-found error (the caller layer additionally treats an
empty loaded set as fatal). -/
theorem load_zero_matches_fails_in_core (path : String) (files : List FileEntry)
    (h : ∀ f ∈ files, f.isDir = true ∨ matchesMigrationPattern f.name = false) :
    LoadMigrations path files = .error (.noMigrationsFound path) := by
  have hempty : FindMigrationsEx files = [] := by
    rw [FindMigrationsEx]
    apply List.filter_eq_nil_iff.mpr
    intro f hf
    rcases h f hf with h1 | h2
    · simp [h1]
    · simp [h2]
  simp [LoadMigrations, hempty]

/-- Witness for the amended C6 at a concrete input. -/
theorem load_zero_matches_fails_in_core_witness :
    LoadMigrations "migrations" [⟨"notes.txt", false, "x"⟩] =
      .error (.noMigrationsFound "migrations") :=
  load_zero_matches_fails_in_core "migrations" [⟨"notes.txt", false, "x"⟩] (by decide)

/-- C7: after a successful lock acquisition the advisory-lock release
is the last connection operation on every exit path; a release failure
becomes the returned error exactly when the run's own result was
success, and an earlier error is preserved otherwise. -/
theorem lock_release_on_every_exit_path
    (m : Migrator) (beh : DBBehavior) (applied : List String) (target : String)
    (ha : beh.opFails .acquireLock = false) :
    (MigrateTo m beh applied target).st.trace.getLast? = some .releaseLock
    ∧ ((MigrateToInner m beh applied target ⟨applied, [.acquireLock], []⟩).result = .ok →
        beh.opFails .releaseLock = true →
        (MigrateTo m beh applied target).result = .errored (.dbError .releaseLock))
    ∧ (∀ e, (MigrateToInner m beh applied target ⟨applied, [.acquireLock], []⟩).result =
          .errored e →
        (MigrateTo m beh applied target).result = .errored e) := by
  refine ⟨?_, ?_, ?_⟩
  · rw [MigrateTo_eq ha]
    exact List.getLast?_concat _
  · intro hok hrel
    rw [MigrateTo_eq ha]
    dsimp only
    rw [hok, hrel]
  · intro e he
    rw [MigrateTo_eq ha]
    dsimp only
    rw [he]

/-- Witness for C7 at a concrete input: a fully successful forward run
whose lock release fails still returns the release failure as the
overall error, with the release as the final connection operation. -/
theorem lock_release_on_every_exit_path_witness :
    (MigrateTo mgPlain unlockFailOnly [] "001_a.sql").st.trace.getLast? = some .releaseLock
    ∧ (MigrateTo mgPlain unlockFailOnly [] "001_a.sql").result =
        .errored (.dbError .releaseLock) := by
  have h := lock_release_on_every_exit_path mgPlain unlockFailOnly [] "001_a.sql" rfl
  exact ⟨h.1, h.2.1 (by decide) rfl⟩

lemma length_eq_zero_iff_empty {s : String} : s.length = 0 ↔ s = "" := by
  constructor
  · intro h
    have hd : s.data = [] := List.length_eq_zero.mp h
    cases s
    simp_all
  · intro h
    subst h
    rfl

lemma lineIsSQL_false_iff {v : String} :
    lineIsSQL v = false ↔ (v.trim = "" ∨ v.trim.startsWith "--") := by
  rw [lineIsSQL]
  by_cases h1 : v.trim = ""
  · simp [h1, length_eq_zero_iff_empty]
  · have h2 : ¬ v.trim.length = 0 := fun hl => h1 (length_eq_zero_iff_empty.mp hl)
    by_cases h3 : v.trim.startsWith "--" <;> simp [h1, h2, h3]

lemma containsSQL_false_iff {u : String} :
    containsSQL u = false ↔
      ∀ line ∈ u.splitOn "\n", (line.trim = "" ∨ line.trim.startsWith "--") := by
  rw [containsSQL]
  rw [← Bool.not_eq_true, List.any_eq_true]
  push_neg
  constructor
  · intro h line hline
    have := h line hline
    rw [← lineIsSQL_false_iff]
    simpa using this
  · intro h line hline
    have := lineIsSQL_false_iff.mpr (h line hline)
    simp [this]

lemma loadFiles_error_iff :
    ∀ (files : List FileEntry) (migs : List Migration),
      (loadFiles files migs = .error .errNoFwMigration ↔
        ∃ f ∈ files, containsSQL (upBodyOf f) = false) := by
  intro files
  induction files with
  | nil => intro migs; simp [loadFiles]
  | cons f rest ih =>
    intro migs
    by_cases hc : containsSQL (upBodyOf f)
    · rw [loadFiles, if_neg (by simp [hc]), ih]
      simp [hc]
    · have hc2 : containsSQL (upBodyOf f) = false := by simpa using hc
      rw [loadFiles, if_pos (by simp [hc2])]
      simp [hc2]

lemma loadFiles_ok :
    ∀ (files : List FileEntry) (migs : List Migration),
      (∀ f ∈ files, containsSQL (upBodyOf f) = true) →
      loadFiles files migs = .ok (files.foldl
        (fun acc f => AppendMigration acc f.name (upBodyOf f) (downBodyOf f)) migs) := by
  intro files
  induction files with
  | nil => intro migs _; rfl
  | cons f rest ih =>
    intro migs hall
    have hc : containsSQL (upBodyOf f) = true := hall f (List.mem_cons_self _ _)
    rw [loadFiles, if_neg (by simp [hc]), List.foldl_cons]
    exact ih _ (fun g hg => hall g (List.mem_cons_of_mem _ hg))

lemma foldl_AppendMigration_map :
    ∀ (files : List FileEntry) (migs : List Migration),
      (files.foldl (fun acc f => AppendMigration acc f.name (upBodyOf f) (downBodyOf f)) migs).map
          (fun mg => (mg.Name, mg.UpSQL, mg.DownSQL)) =
        migs.map (fun mg => (mg.Name, mg.UpSQL, mg.DownSQL))
          ++ files.map (fun f => (f.name, upBodyOf f, downBodyOf f)) := by
  intro files
  induction files with
  | nil => intro migs; simp
  | cons f rest ih =>
    intro migs
    rw [List.foldl_cons, ih]
    simp [AppendMigration]

/-- C8: loading fails with the empty-forward-migration error exactly
when some discovered file's up-body has no line that is non-blank and
not a single-line comment; when every up-body passes the check the load
succeeds, each migration carrying its file's up-body and its (possibly
empty) down-body — an empty down-body is accepted and merely marks the
migration irreversible. -/
theorem load_rejects_empty_up_accepts_empty_down
    (path : String) (files : List FileEntry) (hne : FindMigrationsEx files ≠ []) :
    (LoadMigrations path files = .error .errNoFwMigration ↔
      ∃ f ∈ FindMigrationsEx files, ∀ line ∈ (upBodyOf f).splitOn "\n",
        (line.trim = "" ∨ line.trim.startsWith "--"))
    ∧ ((∀ f ∈ FindMigrationsEx files, containsSQL (upBodyOf f) = true) →
        ∃ migs, LoadMigrations path files = .ok migs
          ∧ migs.map (fun mg => (mg.Name, mg.UpSQL, mg.DownSQL)) =
              (FindMigrationsEx files).map (fun f => (f.name, upBodyOf f, downBodyOf f))) := by
  have hlen : ¬ (FindMigrationsEx files).length = 0 := by
    simpa [List.length_eq_zero] using hne
  constructor
  · rw [LoadMigrations]
    simp only [if_neg hlen]
    rw [loadFiles_error_iff]
    simp only [containsSQL_false_iff]
  · intro hall
    refine ⟨(FindMigrationsEx files).foldl
        (fun acc f => AppendMigration acc f.name (upBodyOf f) (downBodyOf f)) [], ?_, ?_⟩
    · rw [LoadMigrations]
      simp only [if_neg hlen]
      exact loadFiles_ok _ [] hall
    · rw [foldl_AppendMigration_map]
      simp

/-- Witness for C8 at a concrete input: one file whose up-body is real
SQL and which has no down-body delimiter; the load does not raise the
empty-forward-migration error, and the loaded migration carries an
empty down-body. -/
theorem load_rejects_empty_up_accepts_empty_down_witness :
    (LoadMigrations "m" [⟨"001_a.sql", false, "create table t1(id int)"⟩] =
        .error .errNoFwMigration ↔
      ∃ f ∈ FindMigrationsEx [⟨"001_a.sql", false, "create table t1(id int)"⟩],
        ∀ line ∈ (upBodyOf f).splitOn "\n",
          (line.trim = "" ∨ line.trim.startsWith "--"))
    ∧ ((∀ f ∈ FindMigrationsEx [⟨"001_a.sql", false, "create table t1(id int)"⟩],
          containsSQL (upBodyOf f) = true) →
        ∃ migs, LoadMigrations "m" [⟨"001_a.sql", false, "create table t1(id int)"⟩] = .ok migs
          ∧ migs.map (fun mg => (mg.Name, mg.UpSQL, mg.DownSQL)) =
              (FindMigrationsEx [⟨"001_a.sql", false, "create table t1(id int)"⟩]).map
                (fun f => (f.name, upBodyOf f, downBodyOf f))) :=
  load_rejects_empty_up_accepts_empty_down "m"
    [⟨"001_a.sql", false, "create table t1(id int)"⟩] (by decide)

/-- C9 (evaluation at the failing input): with the `OnStart` callback
set, a forward run invokes the callback once for the one processed
migration, with its sequence number, name and SQL — but with the empty
string as the direction label, not `"up"`; a back run likewise passes
`""` instead of `"down"`.  The source declares `directionName` and
never assigns it. -/
theorem onStart_gets_empty_direction_label :
    (MigrateTo mgObserved noFail [] "001_a.sql").st.starts =
      [⟨1, "001_a.sql", "", "create table t1(id int)"⟩]
    ∧ (MigrateTo mgObserved noFail [] "001_a.sql").result = .ok
    ∧ (MigrateTo mgObserved noFail ["001_a.sql", "003_c.sql"] "001_a.sql").st.starts =
      [⟨3, "003_c.sql", "", "drop table t3"⟩]
    ∧ (MigrateTo mgObserved noFail ["001_a.sql", "003_c.sql"] "001_a.sql").result = .ok := by
  decide

lemma runStep_ne_panicked {m : Migrator} {name : String} {cur : Migration}
    (h : mapLookup m.Migrations name = some cur) (beh : DBBehavior)
    (direction : MigraionDirection) (st : LoopSt) :
    (runStep m beh direction name st).1 ≠ .panicked := by
  simp only [runStep, h, doOp]
  simp only [apply_ite (f := Prod.snd), apply_ite (f := Prod.fst)]
  split_ifs <;> simp_all

lemma runLoop_ne_panicked {m : Migrator} (beh : DBBehavior)
    (direction : MigraionDirection) (target : String) :
    ∀ (names : List String) (st : LoopSt),
      (∀ n ∈ names, (mapLookup m.Migrations n).isSome) →
      (runLoop m beh direction target names st).result ≠ .panicked := by
  intro names
  induction names with
  | nil =>
    intro st _
    simp [runLoop]
  | cons n rest ih =>
    intro st hk
    rcases Option.isSome_iff_exists.mp (hk n (List.mem_cons_self _ _)) with ⟨cur, hcur⟩
    have hne := runStep_ne_panicked hcur beh direction st
    rcases hrs : runStep m beh direction n st with ⟨r, st1⟩
    rw [hrs] at hne
    rw [runLoop, hrs]
    cases r with
    | ok =>
      dsimp only
      by_cases he : target = n
      · rw [if_pos he]
        simp
      · rw [if_neg he]
        exact ih st1 (fun x hx => hk x (List.mem_cons_of_mem _ hx))
    | errored e => simp
    | panicked => exact absurd rfl hne

lemma backTraversal_subset (applied : List String) (target : String) :
    backTraversal applied target ⊆ applied := by
  intro n hn
  simp only [backTraversal] at hn
  have h1 : n ∈ Reverse applied := List.take_subset _ _ hn
  rw [Reverse] at h1
  exact List.mem_reverse.mp h1

lemma MigrateTo_ne_panicked (m : Migrator) (beh : DBBehavior) (applied : List String)
    (target : String) (hk : ∀ n ∈ applied, (mapLookup m.Migrations n).isSome) :
    (MigrateTo m beh applied target).result ≠ .panicked := by
  cases ha : beh.opFails .acquireLock with
  | true =>
    rw [MigrateTo]
    simp [doOp, ha]
  | false =>
    have hinner : (MigrateToInner m beh applied target
        ⟨applied, [.acquireLock], []⟩).result ≠ .panicked := by
      cases hd : GetDirection m applied target with
      | Back =>
        rw [MigrateToInner_back hd]
        apply runLoop_ne_panicked
        intro n hn
        exact hk n (backTraversal_subset applied target hn)
      | Forward =>
        rw [MigrateToInner_forward hd]
        apply runLoop_ne_panicked
        intro n hn
        exact mapLookup_isSome_of_mem_names (MigrationsToApply_subset_names m applied hn)
      | NotFound =>
        rw [MigrateToInner_notFound hd]
        simp
    rw [MigrateTo_eq ha]
    dsimp only
    rcases hres : (MigrateToInner m beh applied target
        ⟨applied, [.acquireLock], []⟩).result with _ | e | _
    · cases hrel : beh.opFails .releaseLock <;> simp
    · simp
    · exact absurd hres hinner

/-- C10: `MigrateTo` is crash-free whenever every name in the version
table is a key of the loaded migration map — and only then: with an
applied name absent from the map (a version row whose migration file is
gone), a back run dereferences the nil map entry and panics, as the
concrete run in the second conjunct shows. -/
theorem crash_free_iff_applied_names_loaded :
    (∀ (m : Migrator) (beh : DBBehavior) (applied : List String) (target : String),
        (∀ n ∈ applied, (mapLookup m.Migrations n).isSome) →
        (MigrateTo m beh applied target).result ≠ .panicked)
    ∧ (MigrateTo mgMissing noFail ["001_a.sql", "002_gone.sql"] "001_a.sql").result =
        .panicked := by
  constructor
  · intro m beh applied target hk
    exact MigrateTo_ne_panicked m beh applied target hk
  · decide

/-- Witness for C10's universal part at a concrete input. -/
theorem crash_free_iff_applied_names_loaded_witness :
    (MigrateTo mgPlain noFail ["001_a.sql"] "003_c.sql").result ≠ .panicked :=
  crash_free_iff_applied_names_loaded.1 mgPlain noFail ["001_a.sql"] "003_c.sql" (by decide)

end Pggo
